import Mathlib

/- Shallow embedding of the multi-label segmentation evaluation engine of
kraken (src/kraken/ketos.py, command segtest) and of the repolygonize
script (src/kraken/contrib/repolygonize.py).

Boolean tensors of shape [C, N] (classes x flattened pixels) are embedded
as List (List Bool); pixel counts are Nat; the double-precision metric
layer is embedded over the rationals, with the float32 machine epsilon
(torch.finfo(torch.float).eps = 2 ^ (-23)) as an exact rational. -/

namespace Kraken

/-- torch.finfo(torch.float).eps: the float32 machine epsilon, exactly 2 ^ (-23). -/
def smooth : ℚ := 1 / 2 ^ 23

/-- Number of true entries of a boolean pixel vector (tensor.sum over a bool mask). -/
def popcount (l : List Bool) : ℕ := l.count true

/-- Elementwise conjunction of two equal-length pixel vectors (y & pred). -/
def maskAnd (a b : List Bool) : List Bool := List.zipWith and a b

/-- Elementwise disjunction of two equal-length pixel vectors (y | pred). -/
def maskOr (a b : List Bool) : List Bool := List.zipWith or a b

/-- Elementwise equality count: torch.eq(y, pred).sum(dim=1). -/
def eqCount (a b : List Bool) : ℕ := (List.zipWith (fun x y => x == y) a b).count true

/-- OR-reduction over the masks of the selected classes,
t[idxs].sum(dim=0, dtype=torch.bool); only invoked on nonempty selections. -/
def orReduce : List (List Bool) → List Bool
  | [] => []
  | h :: t => t.foldl maskOr h

/-- One page's statistics record: the dict appended to pages in segtest
(ketos.py lines 1463-1469 and 1470-1488), with the optional
baselines/regions sub-dicts flattened into fields (zero / empty when the
category has no classes in the class mapping of the run). -/
structure SegStats where
  intersections : List ℕ
  unions : List ℕ
  corrects : List ℕ
  cls_cnt : List ℕ
  all_n : ℕ
  blInt : ℕ
  blUni : ℕ
  rgInt : ℕ
  rgUni : ℕ
  blConfInt : List (List ℕ)
  blConfUni : List (List ℕ)
  rgConfInt : List (List ℕ)
  rgConfUni : List (List ℕ)
  deriving DecidableEq, Repr

/-- Elementwise addition of two per-class count vectors. -/
def vecAdd (a b : List ℕ) : List ℕ := List.zipWith (· + ·) a b

/-- Elementwise addition of two count matrices. -/
def matAdd (a b : List (List ℕ)) : List (List ℕ) := List.zipWith vecAdd a b

/-- Field-by-field addition of two page statistics records: one step of the
fold that torch.stack(...).sum(dim=-1) performs over the pages list. -/
def statAdd (a b : SegStats) : SegStats where
  intersections := vecAdd a.intersections b.intersections
  unions := vecAdd a.unions b.unions
  corrects := vecAdd a.corrects b.corrects
  cls_cnt := vecAdd a.cls_cnt b.cls_cnt
  all_n := a.all_n + b.all_n
  blInt := a.blInt + b.blInt
  blUni := a.blUni + b.blUni
  rgInt := a.rgInt + b.rgInt
  rgUni := a.rgUni + b.rgUni
  blConfInt := matAdd a.blConfInt b.blConfInt
  blConfUni := matAdd a.blConfUni b.blConfUni
  rgConfInt := matAdd a.rgConfInt b.rgConfInt
  rgConfUni := matAdd a.rgConfUni b.rgConfUni

/-- All-zero aggregate for a run with C classes, kb baseline classes and
kr region classes. -/
def zeroStats (C kb kr : ℕ) : SegStats where
  intersections := List.replicate C 0
  unions := List.replicate C 0
  corrects := List.replicate C 0
  cls_cnt := List.replicate C 0
  all_n := 0
  blInt := 0
  blUni := 0
  rgInt := 0
  rgUni := 0
  blConfInt := List.replicate kb (List.replicate (kb - 1) 0)
  blConfUni := List.replicate kb (List.replicate (kb - 1) 0)
  rgConfInt := List.replicate kr (List.replicate (kr - 1) 0)
  rgConfUni := List.replicate kr (List.replicate (kr - 1) 0)

/-- Fold a list of per-page statistics records into a running aggregate. -/
def aggregate (init : SegStats) (pages : List SegStats) : SegStats :=
  pages.foldl statAdd init

theorem vecAdd_right_comm : ∀ z x y : List ℕ,
    vecAdd (vecAdd z x) y = vecAdd (vecAdd z y) x
  | [], _, _ => rfl
  | _ :: _, [], [] => rfl
  | _ :: _, [], _ :: _ => by simp [vecAdd]
  | _ :: _, _ :: _, [] => by simp [vecAdd]
  | z :: zs, x :: xs, y :: ys => by
    simp only [vecAdd, List.zipWith_cons_cons]
    rw [Nat.add_right_comm]
    exact congrArg _ (vecAdd_right_comm zs xs ys)

theorem matAdd_right_comm : ∀ z x y : List (List ℕ),
    matAdd (matAdd z x) y = matAdd (matAdd z y) x
  | [], _, _ => rfl
  | _ :: _, [], [] => rfl
  | _ :: _, [], _ :: _ => by simp [matAdd]
  | _ :: _, _ :: _, [] => by simp [matAdd]
  | z :: zs, x :: xs, y :: ys => by
    simp only [matAdd, List.zipWith_cons_cons]
    rw [vecAdd_right_comm]
    exact congrArg _ (matAdd_right_comm zs xs ys)

theorem statAdd_right_comm (z x y : SegStats) :
    statAdd (statAdd z x) y = statAdd (statAdd z y) x := by
  simp only [statAdd, vecAdd_right_comm, matAdd_right_comm, Nat.add_right_comm]

/-- C9: folding any two batches of per-page statistics records into the
all-zero initial aggregate by field-by-field addition is independent of the
order of the two batches. -/
theorem aggregate_comm (C kb kr : ℕ) (A B : List SegStats) :
    aggregate (aggregate (zeroStats C kb kr) A) B
      = aggregate (aggregate (zeroStats C kb kr) B) A := by
  have h1 : ∀ init : SegStats, ∀ X Y : List SegStats,
      aggregate (aggregate init X) Y = (X ++ Y).foldl statAdd init := by
    intro init X Y
    simp [aggregate, List.foldl_append]
  rw [h1, h1]
  exact (List.perm_append_comm).foldl_eq'
    (fun x _ y _ z => statAdd_right_comm z x y) _

/- Per-page statistics computation of segtest (ketos.py 1421-1488). -/

/-- Pairwise confusion intersections of the local helper
_compute_iou_overlap (ketos.py 1422-1448): the row for class line_idx
holds, for every other class subline_idx of the category in order, the
pixel count of y[line_idx] & pred[subline_idx]; the unsqueeze/repeat of
y[line_idx] against the stacked pred rows of the other classes followed by
sum(dim=1) computes exactly this per-pair count. -/
def compute_iou_overlap_int (classes_idx : List ℕ)
    (y pred : List (List Bool)) : List (List ℕ) :=
  classes_idx.map fun line_idx =>
    (classes_idx.filter fun subline_idx => subline_idx ≠ line_idx).map
      fun subline_idx =>
        popcount (maskAnd (y.getD line_idx []) (pred.getD subline_idx []))

/-- Pairwise confusion unions of _compute_iou_overlap: as the
intersections, with | in place of &. -/
def compute_iou_overlap_uni (classes_idx : List ℕ)
    (y pred : List (List Bool)) : List (List ℕ) :=
  classes_idx.map fun line_idx =>
    (classes_idx.filter fun subline_idx => subline_idx ≠ line_idx).map
      fun subline_idx =>
        popcount (maskOr (y.getD line_idx []) (pred.getD subline_idx []))

/-- Per-page statistics of the evaluation loop body (ketos.py 1463-1488),
computed from the flattened boolean target and prediction masks of one page
(both [C, N]): per-class intersection, union, agreement and ground-truth
positive counts, the page pixel count y.size(1), and for each nonempty
category the intersection/union of the OR-reduced category masks plus,
when the category has at least two classes, the pairwise confusion
matrices. -/
def pageStats (lines_idx regions_idx : List ℕ)
    (y pred : List (List Bool)) : SegStats where
  intersections := List.zipWith (fun yc pc => popcount (maskAnd yc pc)) y pred
  unions := List.zipWith (fun yc pc => popcount (maskOr yc pc)) y pred
  corrects := List.zipWith eqCount y pred
  cls_cnt := y.map popcount
  all_n := (y.headD []).length
  blInt :=
    if lines_idx ≠ [] then
      popcount (maskAnd (orReduce (lines_idx.map fun i => y.getD i []))
        (orReduce (lines_idx.map fun i => pred.getD i [])))
    else 0
  blUni :=
    if lines_idx ≠ [] then
      popcount (maskOr (orReduce (lines_idx.map fun i => y.getD i []))
        (orReduce (lines_idx.map fun i => pred.getD i [])))
    else 0
  rgInt :=
    if regions_idx ≠ [] then
      popcount (maskAnd (orReduce (regions_idx.map fun i => y.getD i []))
        (orReduce (regions_idx.map fun i => pred.getD i [])))
    else 0
  rgUni :=
    if regions_idx ≠ [] then
      popcount (maskOr (orReduce (regions_idx.map fun i => y.getD i []))
        (orReduce (regions_idx.map fun i => pred.getD i [])))
    else 0
  blConfInt :=
    if 1 < lines_idx.length then compute_iou_overlap_int lines_idx y pred
    else []
  blConfUni :=
    if 1 < lines_idx.length then compute_iou_overlap_uni lines_idx y pred
    else []
  rgConfInt :=
    if 1 < regions_idx.length then compute_iou_overlap_int regions_idx y pred
    else []
  rgConfUni :=
    if 1 < regions_idx.length then compute_iou_overlap_uni regions_idx y pred
    else []

/-- Elementwise strict thresholding of one class's confidence grid:
pred.squeeze() > threshold (ketos.py 1461). -/
def binarizeGrid (threshold : ℚ) (g : List (List ℚ)) : List (List Bool) :=
  g.map fun row => row.map fun v => decide (v > threshold)

/-- Nearest-neighbour resampling of a pixel row to length n (the default
mode of torch.nn.functional.interpolate): output index i reads input index
floor(i * len / n). -/
def interpNearest1d (n : ℕ) (l : List Bool) : List Bool :=
  (List.range n).map fun i => l.getD (i * l.length / n) false

/-- Nearest-neighbour resampling of a 2-D grid to h rows and w columns. -/
def interpNearest2d (h w : ℕ) (g : List (List Bool)) : List (List Bool) :=
  (List.range h).map fun i => interpNearest1d w (g.getD (i * g.length / h) [])

/-- One iteration of the evaluation loop body (ketos.py 1457-1488) on a
successfully loaded page: the network's confidence maps conf [C, H, W] play
the role of the forward pass output; the target is rescaled to the
prediction size (pred.size(2), pred.size(3)), the prediction is binarized
with the strict threshold, both masks are flattened to [C, N] by view, and
the page statistics are accumulated. -/
def processPage (lines_idx regions_idx : List ℕ) (threshold : ℚ)
    (conf : List (List (List ℚ))) (target : List (List (List Bool))) :
    SegStats :=
  let h := (conf.headD []).length
  let w := ((conf.headD []).headD []).length
  let y := (target.map (interpNearest2d h w)).map List.flatten
  let pred := (conf.map (binarizeGrid threshold)).map List.flatten
  pageStats lines_idx regions_idx y pred

/-- Input of one evaluation loop iteration: either a loaded page (confidence
maps and target masks) or a load/validation failure (FileNotFoundError or
KrakenInputException), which the loop body catches. -/
inductive PageLoad where
  | ok (conf : List (List (List ℚ))) (target : List (List (List Bool))) :
      PageLoad
  | failed (msg : String) : PageLoad

/-- True on the items whose load raises. -/
def isFailed : PageLoad → Bool
  | .ok _ _ => false
  | .failed _ => true

/-- Evaluation loop of segtest (ketos.py 1450-1496): batches starts at the
number of batches of the loader, every page that loads appends its
statistics to pages, and every caught failure decrements batches and skips
the page. Returns the final (batches, pages). -/
def runLoop (lines_idx regions_idx : List ℕ) (threshold : ℚ)
    (items : List PageLoad) : ℕ × List SegStats :=
  items.foldl
    (fun acc item =>
      match item with
      | .ok conf target =>
          (acc.1,
           acc.2 ++ [processPage lines_idx regions_idx threshold conf target])
      | .failed _ => (acc.1 - 1, acc.2))
    (items.length, [])

/-- Pages of a run that load successfully, in order. -/
def loadedPages (items : List PageLoad) :
    List (List (List (List ℚ)) × List (List (List Bool))) :=
  items.filterMap fun item =>
    match item with
    | .ok conf target => some (conf, target)
    | .failed _ => none

/- Metric layer of segtest (ketos.py 1500-1521). All dtype=torch.double
tensors are embedded as exact rationals. -/

/-- Aggregate of one per-class field over all pages at class position c:
torch.stack([x[field] for x in pages], -1).sum(dim=-1) read at c. -/
def aggAt (field : SegStats → List ℕ) (pages : List SegStats) (c : ℕ) : ℕ :=
  (pages.map fun p => (field p).getD c 0).sum

/-- Total pixel count over all pages: torch.stack([x.all_n ...]).sum(). -/
def all_n_total (pages : List SegStats) : ℕ :=
  (pages.map SegStats.all_n).sum

/-- torch.mean of a rational vector: sum divided by length. -/
def vecMean (l : List ℚ) : ℚ := l.sum / l.length

/-- Per-class pixel accuracy vector corrects / all_n of a run with C
classes. -/
def class_pixel_accuracy (pages : List SegStats) (C : ℕ) : List ℚ :=
  (List.range C).map fun c =>
    (aggAt SegStats.corrects pages c : ℚ) / (all_n_total pages : ℚ)

/-- Global mean accuracy: torch.mean(class_pixel_accuracy). -/
def mean_accuracy (pages : List SegStats) (C : ℕ) : ℚ :=
  vecMean (class_pixel_accuracy pages C)

/-- Per-class smoothed IoU vector:
(intersections + smooth) / (unions + smooth). -/
def class_iu (pages : List SegStats) (C : ℕ) : List ℚ :=
  (List.range C).map fun c =>
    ((aggAt SegStats.intersections pages c : ℚ) + smooth)
      / ((aggAt SegStats.unions pages c : ℚ) + smooth)

/-- Global mean IoU: torch.mean(class_iu). -/
def mean_iu (pages : List SegStats) (C : ℕ) : ℚ :=
  vecMean (class_iu pages C)

/-- Scalar torch.stack([x.cls_cnt for x in pages]).sum(): the stack is
summed over every dimension at once, so the per-class structure is lost. -/
def cls_cnt_total (pages : List SegStats) : ℕ :=
  (pages.map fun p => p.cls_cnt.sum).sum

/-- freq_iu exactly as the code computes it (ketos.py 1516-1517):
torch.sum(cls_cnt / cls_cnt.sum() * class_iu.sum()) where cls_cnt is
already the scalar cls_cnt_total, so the expression collapses to
(s / s) * (sum of the per-class IoUs). In torch s / s is NaN when s = 0;
over ℚ it is 0, and the statements below only evaluate it at s > 0. -/
def freq_iu (pages : List SegStats) (C : ℕ) : ℚ :=
  ((cls_cnt_total pages : ℚ) / (cls_cnt_total pages : ℚ))
    * (class_iu pages C).sum

/-- Frequency-weighted IoU as the specification words it (claim C1): the
sum over classes of (positives[c] / total positives) * classIoU[c]. This is
the comparison definition for the refinement claim; it follows the words of
the spec, not the code. -/
def freqWeightedIoU_spec (pages : List SegStats) (C : ℕ) : ℚ :=
  ((List.range C).map fun c =>
    (aggAt SegStats.cls_cnt pages c : ℚ) / (cls_cnt_total pages : ℚ)
      * ((class_iu pages C).getD c 0)).sum

/- Overlap table of _compute_overlap_iou (ketos.py 1542-1573). -/

/-- All-zero k x c matrix. -/
def zeroMat (k c : ℕ) : List (List ℕ) := List.replicate k (List.replicate c 0)

/-- Elementwise sum of the per-page confusion matrices of one category with
k classes: torch.stack([...], dim=-1).sum(dim=-1). -/
def aggMats (k : ℕ) (ms : List (List (List ℕ))) : List (List ℕ) :=
  ms.foldl matAdd (zeroMat k (k - 1))

/-- Smoothed elementwise IoU matrix ov_iu of _compute_overlap_iou:
(ov_intersections + smooth) / (ov_unions + smooth) over the page-summed
confusion matrices. -/
def ov_iu_mats (classes : List ℕ)
    (confInts confUnis : List (List (List ℕ))) : List (List ℚ) :=
  List.zipWith
    (fun ri ru =>
      List.zipWith (fun (a b : ℕ) => ((a : ℚ) + smooth) / ((b : ℚ) + smooth))
        ri ru)
    (aggMats classes.length confInts) (aggMats classes.length confUnis)

/-- Overlap IoU table of _compute_overlap_iou for one category: one row per
class in mapping order, labelled by the row class and holding one labelled
cell per other class of the category in order; a cell whose smoothed IoU
equals 1 is rendered empty (none), any other value is rendered (the
3-decimal fixed string formatting of the presentation layer is abstracted
to the exact rational). -/
def compute_overlap_iou (classes : List ℕ)
    (confInts confUnis : List (List (List ℕ))) :
    List (ℕ × List (ℕ × Option ℚ)) :=
  classes.enum.map fun rc =>
    (rc.2,
     ((classes.filter fun x => x ≠ rc.2).enum).map fun sc =>
       (sc.2,
        if ((ov_iu_mats classes confInts confUnis).getD rc.1 []).getD sc.1 0
            = 1 then
          none
        else
          some (((ov_iu_mats classes confInts confUnis).getD rc.1 []).getD
            sc.1 0)))

/-- Pairwise overlap statistic as claim C2 words it: each class ci is
intersected against the OR of all other classes of the category, the value
being repeated across the k - 1 columns of the row. This is the comparison
definition for the refinement claim; it follows the words of the spec, not
the code. -/
def overlap_int_or_spec (classes_idx : List ℕ)
    (y pred : List (List Bool)) : List (List ℕ) :=
  classes_idx.map fun line_idx =>
    (classes_idx.filter fun s => s ≠ line_idx).map fun _ =>
      popcount (maskAnd (y.getD line_idx [])
        (orReduce ((classes_idx.filter fun s => s ≠ line_idx).map
          fun s => pred.getD s [])))

/- Concrete evaluation scenarios. -/

/-- Confidence maps of a 2-class, 1-pixel page predicted perfectly. -/
def pageA_conf : List (List (List ℚ)) := [[[1]], [[1]]]

/-- Target masks of the same page: both classes present at the pixel. -/
def pageA_target : List (List (List Bool)) := [[[true]], [[true]]]

/-- Statistics of the perfect 2-baseline-class 1-pixel page: both classes
present in target and prediction at the single pixel. -/
def pageA : SegStats :=
  pageStats [0, 1] [] [[true], [true]] [[true], [true]]

/-- Target masks of a 3-class, 2-pixel page: class 0 everywhere, others
empty. -/
def pageB_y : List (List Bool) :=
  [[true, true], [false, false], [false, false]]

/-- Predicted masks of the same page: class 1 on pixel 0, class 2 on
pixel 1, class 0 nowhere. -/
def pageB_pred : List (List Bool) :=
  [[false, false], [true, false], [false, true]]

/- Embedding of src/kraken/contrib/repolygonize.py, cli, lines 119-148.
A document line is embedded as its baseline field: none when the XML line
has no baseline, otherwise the flattened coordinate list, so that the
Python sentinel literal [0, 0] is representable. Polygons are lists of
integer points. -/

/-- Baseline extraction with the Python default:
bl = x[baseline] if x[baseline] is not None else [0, 0]. -/
def blOf (line : Option (List ℤ)) : List ℤ := line.getD [0, 0]

/-- Modelled from the spec: calculate_polygonal_environment
(kraken.lib.segmentation, not under src/) is the geometric polygonization
algorithm that turns baselines into boundary polygons, returning one
(possibly absent) boundary polygon per input baseline; the per-baseline
computation is an arbitrary parameter f. -/
def calcPolygonalEnvironment (f : List ℤ → Option (List (ℤ × ℤ)))
    (baselines : List (List ℤ)) : List (Option (List (ℤ × ℤ))) :=
  baselines.map f

/-- Line-classification loop of repolygonize.cli carrying the running
enumerate index: a line goes to passed when its baseline equals the [0, 0]
sentinel (in particular when it was missing) or is empty, and its baseline
is appended to the kept baselines otherwise. Returns (baselines, passed). -/
def scanLines (i : ℕ) : List (Option (List ℤ)) → List (List ℤ) × List ℕ
  | [] => ([], [])
  | line :: rest =>
    if blOf line = [0, 0] then
      ((scanLines (i + 1) rest).1, i :: (scanLines (i + 1) rest).2)
    else if blOf line ≠ [] then
      (blOf line :: (scanLines (i + 1) rest).1, (scanLines (i + 1) rest).2)
    else
      ((scanLines (i + 1) rest).1, i :: (scanLines (i + 1) rest).2)

/-- Re-insertion loop: for idx in passed: o.insert(idx, None). -/
def insertPassed (o : List (Option (List (ℤ × ℤ)))) (passed : List ℕ) :
    List (Option (List (ℤ × ℤ))) :=
  passed.foldl (fun acc i => acc.insertIdx i none) o

/-- Per-document pipeline of repolygonize.cli: classify the document lines,
polygonize the kept baselines, and re-insert None at the recorded indices
of the skipped lines. -/
def repolyDoc (f : List ℤ → Option (List (ℤ × ℤ)))
    (docLines : List (Option (List ℤ))) : List (Option (List (ℤ × ℤ))) :=
  let r := scanLines 0 docLines
  insertPassed (calcPolygonalEnvironment f r.1) r.2

/-- Outcome the pipeline should assign to one line, read off directly from
the control flow of the classification loop. -/
def lineResult (f : List ℤ → Option (List (ℤ × ℤ)))
    (line : Option (List ℤ)) : Option (List (ℤ × ℤ)) :=
  if blOf line = [0, 0] then none
  else if blOf line ≠ [] then f (blOf line)
  else none

theorem map_shift_one (i : ℕ) (l : List ℕ) :
    (l.map (· + 1)).map (· + i) = l.map (· + (i + 1)) := by
  rw [List.map_map]
  exact List.map_congr_left fun a _ => by simp only [Function.comp_apply]; omega

theorem scanLines_shift (i : ℕ) : ∀ ls : List (Option (List ℤ)),
    scanLines i ls = ((scanLines 0 ls).1, (scanLines 0 ls).2.map (· + i))
  | [] => by simp [scanLines]
  | line :: rest => by
    have h1 := scanLines_shift (i + 1) rest
    have h0 := scanLines_shift 1 rest
    by_cases hbl : blOf line = [0, 0]
    · simp only [scanLines, if_pos hbl, h1, h0, Nat.zero_add, List.map_cons,
        map_shift_one]
    · by_cases hne : blOf line ≠ []
      · simp only [scanLines, if_neg hbl, if_pos hne, h1, h0, Nat.zero_add,
          map_shift_one]
      · simp only [scanLines, if_neg hbl, if_neg hne, h1, h0, Nat.zero_add,
          List.map_cons, map_shift_one]

theorem insertPassed_cons (o : List (Option (List (ℤ × ℤ)))) (p : ℕ)
    (ps : List ℕ) :
    insertPassed o (p :: ps) = insertPassed (o.insertIdx p none) ps := rfl

theorem insertPassed_shift (a : Option (List (ℤ × ℤ))) :
    ∀ (ps : List ℕ) (o : List (Option (List (ℤ × ℤ)))),
    insertPassed (a :: o) (ps.map (· + 1)) = a :: insertPassed o ps
  | [], _ => rfl
  | p :: ps, o => by
    simp only [insertPassed, List.map_cons, List.foldl_cons,
      List.insertIdx_succ_cons]
    exact insertPassed_shift a ps (o.insertIdx p none)

theorem repolyDoc_cons (f : List ℤ → Option (List (ℤ × ℤ)))
    (line : Option (List ℤ)) (rest : List (Option (List ℤ))) :
    repolyDoc f (line :: rest) = lineResult f line :: repolyDoc f rest := by
  have hun : ∀ ls : List (Option (List ℤ)), repolyDoc f ls
      = insertPassed (calcPolygonalEnvironment f (scanLines 0 ls).1)
          (scanLines 0 ls).2 := fun _ => rfl
  have hskip : insertPassed (calcPolygonalEnvironment f (scanLines 0 rest).1)
      (0 :: (scanLines 0 rest).2.map (· + 1))
      = none :: insertPassed (calcPolygonalEnvironment f (scanLines 0 rest).1)
          (scanLines 0 rest).2 := by
    rw [insertPassed_cons, List.insertIdx_zero]
    exact insertPassed_shift none (scanLines 0 rest).2 _
  by_cases hbl : blOf line = [0, 0]
  · rw [hun, hun]
    simp only [scanLines, if_pos hbl, Nat.zero_add, scanLines_shift 1 rest,
      lineResult]
    exact hskip
  · by_cases hne : blOf line ≠ []
    · rw [hun, hun]
      simp only [scanLines, if_neg hbl, if_pos hne, Nat.zero_add,
        scanLines_shift 1 rest, lineResult, calcPolygonalEnvironment,
        List.map_cons]
      exact insertPassed_shift (f (blOf line)) (scanLines 0 rest).2 _
    · rw [hun, hun]
      simp only [scanLines, if_neg hbl, if_neg hne, Nat.zero_add,
        scanLines_shift 1 rest, lineResult]
      exact hskip

/-- C10: for every per-baseline polygonizer f and every parsed document, the
polygon list written back is positionally aligned with the document lines
(entry i is None exactly when line i was skipped, and the polygon computed
from line i's baseline otherwise), and its length equals the number of
input lines, which is the assertion checked by the code. -/
theorem repolyDoc_aligned (f : List ℤ → Option (List (ℤ × ℤ))) :
    ∀ docLines : List (Option (List ℤ)),
    repolyDoc f docLines = docLines.map (lineResult f) ∧
      (repolyDoc f docLines).length = docLines.length
  | [] => ⟨rfl, rfl⟩
  | line :: rest => by
    have ih := repolyDoc_aligned f rest
    constructor
    · rw [repolyDoc_cons, ih.1, List.map_cons]
    · rw [repolyDoc_cons]
      simp only [List.length_cons, ih.2]

/- Helper lemmas on list indexing. -/

theorem getD_map (f : α → β) {l : List α} {j : ℕ} (hj : j < l.length)
    (d : β) (d0 : α) : (l.map f).getD j d = f (l.getD j d0) := by
  rw [List.getD_eq_getElem _ _ (by simpa using hj), List.getElem_map,
    List.getD_eq_getElem _ _ hj]

theorem getD_range {C c : ℕ} (hc : c < C) (d : ℕ) :
    (List.range C).getD c d = c := by
  rw [List.getD_eq_getElem _ _ (by simpa using hc)]
  exact List.getElem_range _ _

theorem length_filter_ne {l : List ℕ} {a : ℕ} (h : l.Nodup) (hm : a ∈ l) :
    (l.filter fun s => s ≠ a).length = l.length - 1 := by
  have h1 := List.countP_eq_length_filter (fun s => decide (s ≠ a)) l
  have h2 := List.length_eq_countP_add_countP (l := l) (fun s => decide (s ≠ a))
  have h3 : l.count a = 1 := List.count_eq_one_of_mem h hm
  have h4 : l.countP (fun s => decide ¬(decide (s ≠ a) = true)) = l.count a := by
    unfold List.count
    apply List.countP_congr
    intro x _
    simp
  omega

theorem smooth_pos : 0 < smooth := by norm_num [smooth]

/- Claim theorems for the metric layer. -/

/-- C1: on the perfect two-class one-pixel page, the code's reported
frequency-weighted IoU evaluates to 2 (the plain sum of the two per-class
IoUs), while the claimed ground-truth-share-weighted sum of the per-class
IoUs evaluates to 1: the code does not compute the claimed quantity. -/
theorem freq_iu_ne_spec_on_pageA :
    freq_iu [pageA] 2 = 2 ∧ freqWeightedIoU_spec [pageA] 2 = 1 := by
  have hA : pageA
      = ⟨[1, 1], [1, 1], [1, 1], [1, 1], 1, 1, 1, 0, 0,
         [[1], [1]], [[1], [1]], [], []⟩ := by decide
  constructor
  · rw [hA]
    simp [freq_iu, cls_cnt_total, class_iu, aggAt, List.range_succ]
    norm_num [smooth]
  · rw [hA]
    simp [freqWeightedIoU_spec, cls_cnt_total, class_iu, aggAt,
      List.range_succ]
    norm_num [smooth]

/-- C3: on the perfect two-class one-pixel page the reported
frequency-weighted IoU equals 2, so it lies outside the closed interval
[0, 1] that the claim asserts for every computed metric. -/
theorem freq_iu_exceeds_one_on_pageA : 1 < freq_iu [pageA] 2 := by
  have hA : pageA
      = ⟨[1, 1], [1, 1], [1, 1], [1, 1], 1, 1, 1, 0, 0,
         [[1], [1]], [[1], [1]], [], []⟩ := by decide
  rw [hA]
  simp [freq_iu, cls_cnt_total, class_iu, aggAt, List.range_succ]
  norm_num [smooth]

/-- C5: for every run and every class position c < C, the reported
per-class IoU is (aggregate intersections + smooth) / (aggregate unions +
smooth) with smooth the float32 machine epsilon; the denominator is never
zero (so the value is always defined), and a class with zero aggregate
intersection and union pixels gets the value 1. -/
theorem class_iu_smoothed (pages : List SegStats) (C c : ℕ) (hc : c < C) :
    (class_iu pages C).getD c 0
        = ((aggAt SegStats.intersections pages c : ℚ) + smooth)
          / ((aggAt SegStats.unions pages c : ℚ) + smooth)
      ∧ ((aggAt SegStats.unions pages c : ℚ) + smooth) ≠ 0
      ∧ (aggAt SegStats.intersections pages c = 0 →
          aggAt SegStats.unions pages c = 0 →
          (class_iu pages C).getD c 0 = 1) := by
  have hden : ((aggAt SegStats.unions pages c : ℚ) + smooth) ≠ 0 := by
    have h1 : (0 : ℚ) ≤ (aggAt SegStats.unions pages c : ℚ) := Nat.cast_nonneg _
    have h2 := smooth_pos
    positivity
  have hval : (class_iu pages C).getD c 0
      = ((aggAt SegStats.intersections pages c : ℚ) + smooth)
        / ((aggAt SegStats.unions pages c : ℚ) + smooth) := by
    unfold class_iu
    rw [getD_map _ (by simpa using hc) 0 0, getD_range hc]
  refine ⟨hval, hden, fun hi hu => ?_⟩
  rw [hval, hi, hu]
  have h2 := smooth_pos
  rw [Nat.cast_zero, zero_add]
  exact div_self (by positivity)

/-- Witness for class_iu_smoothed at the concrete perfect two-class page. -/
theorem class_iu_smoothed_witness :
    (0 : ℕ) < 2 ∧
      ((class_iu [pageA] 2).getD 0 0
          = ((aggAt SegStats.intersections [pageA] 0 : ℚ) + smooth)
            / ((aggAt SegStats.unions [pageA] 0 : ℚ) + smooth)
        ∧ ((aggAt SegStats.unions [pageA] 0 : ℚ) + smooth) ≠ 0
        ∧ (aggAt SegStats.intersections [pageA] 0 = 0 →
            aggAt SegStats.unions [pageA] 0 = 0 →
            (class_iu [pageA] 2).getD 0 0 = 1)) :=
  ⟨by decide, class_iu_smoothed [pageA] 2 0 (by decide)⟩

/-- C6: once at least one page with a nonzero pixel count is accumulated,
the aggregate pixel count is positive, every per-class pixel accuracy is
the aggregate per-class agreement count divided by the aggregate pixel
count, and the reported mean accuracy (resp. mean IoU) is the unweighted
arithmetic mean, over the C classes, of the per-class accuracies (resp.
IoUs). -/
theorem accuracy_and_means (pages : List SegStats) (C c : ℕ) (hc : c < C)
    (hne : pages ≠ []) (hpx : ∀ p ∈ pages, 0 < p.all_n) :
    0 < all_n_total pages
      ∧ (class_pixel_accuracy pages C).getD c 0
          = (aggAt SegStats.corrects pages c : ℚ) / (all_n_total pages : ℚ)
      ∧ mean_accuracy pages C = (class_pixel_accuracy pages C).sum / (C : ℚ)
      ∧ mean_iu pages C = (class_iu pages C).sum / (C : ℚ) := by
  refine ⟨?_, ?_, ?_, ?_⟩
  · match pages, hne with
    | p :: rest, _ =>
      have hp : 0 < p.all_n := hpx p (List.mem_cons_self p rest)
      have : all_n_total (p :: rest) = p.all_n + all_n_total rest := by
        simp [all_n_total]
      omega
  · unfold class_pixel_accuracy
    rw [getD_map _ (by simpa using hc) 0 0, getD_range hc]
  · unfold mean_accuracy vecMean
    congr 1
    simp [class_pixel_accuracy]
  · unfold mean_iu vecMean
    congr 1
    simp [class_iu]

/-- Witness for accuracy_and_means at the concrete perfect two-class page. -/
theorem accuracy_and_means_witness :
    ((0 : ℕ) < 2 ∧ [pageA] ≠ [] ∧ ∀ p ∈ [pageA], 0 < p.all_n) ∧
      (0 < all_n_total [pageA]
        ∧ (class_pixel_accuracy [pageA] 2).getD 0 0
            = (aggAt SegStats.corrects [pageA] 0 : ℚ) / (all_n_total [pageA] : ℚ)
        ∧ mean_accuracy [pageA] 2 = (class_pixel_accuracy [pageA] 2).sum / (2 : ℚ)
        ∧ mean_iu [pageA] 2 = (class_iu [pageA] 2).sum / (2 : ℚ)) :=
  ⟨⟨by decide, by decide, by decide⟩,
    accuracy_and_means [pageA] 2 0 (by decide) (by decide) (by decide)⟩

/- Claim theorems for the pairwise overlap statistics. -/

/-- C2 counterexample: on a concrete 3-class page the matrix computed by
_compute_iou_overlap differs from the matrix described by the claim
(each class against the OR of all other classes): the code's entry for
class 0 against class 1 is 1 while the OR-based entry is 2. -/
theorem overlap_code_ne_or_spec :
    compute_iou_overlap_int [0, 1, 2] pageB_y pageB_pred
      ≠ overlap_int_or_spec [0, 1, 2] pageB_y pageB_pred := by decide

/-- C2 amended: for a category with k pairwise-distinct classes, the
per-page overlap statistic is a [k x (k-1)] matrix whose row for class ci
holds, one column per other class cj of the category in order, the count of
pixels in target[ci] AND pred[cj] (respectively target[ci] OR pred[cj]) --
each other class individually, not their OR. -/
theorem compute_iou_overlap_entries (classes_idx : List ℕ)
    (y pred : List (List Bool)) (hnd : classes_idx.Nodup) (i j : ℕ)
    (hi : i < classes_idx.length) (hj : j < classes_idx.length - 1) :
    (compute_iou_overlap_int classes_idx y pred).length = classes_idx.length
      ∧ ((compute_iou_overlap_int classes_idx y pred).getD i []).length
          = classes_idx.length - 1
      ∧ ((compute_iou_overlap_int classes_idx y pred).getD i []).getD j 0
          = popcount (maskAnd (y.getD (classes_idx.getD i 0) [])
              (pred.getD
                ((classes_idx.filter
                  fun s => s ≠ classes_idx.getD i 0).getD j 0) []))
      ∧ ((compute_iou_overlap_uni classes_idx y pred).getD i []).getD j 0
          = popcount (maskOr (y.getD (classes_idx.getD i 0) [])
              (pred.getD
                ((classes_idx.filter
                  fun s => s ≠ classes_idx.getD i 0).getD j 0) [])) := by
  have hmem : classes_idx.getD i 0 ∈ classes_idx := by
    rw [List.getD_eq_getElem _ _ hi]
    exact List.getElem_mem _
  have hflen : (classes_idx.filter
      fun s => s ≠ classes_idx.getD i 0).length = classes_idx.length - 1 :=
    length_filter_ne hnd hmem
  have hjf : j < (classes_idx.filter
      fun s => s ≠ classes_idx.getD i 0).length := by omega
  refine ⟨by simp [compute_iou_overlap_int], ?_, ?_, ?_⟩
  · unfold compute_iou_overlap_int
    rw [getD_map _ hi [] 0]
    rw [List.length_map, hflen]
  · unfold compute_iou_overlap_int
    rw [getD_map _ hi [] 0, getD_map _ hjf 0 0]
  · unfold compute_iou_overlap_uni
    rw [getD_map _ hi [] 0, getD_map _ hjf 0 0]

/-- Witness for compute_iou_overlap_entries on the concrete 3-class page. -/
theorem compute_iou_overlap_entries_witness :
    (([0, 1, 2] : List ℕ).Nodup ∧ (0 : ℕ) < 3 ∧ (0 : ℕ) < 3 - 1) ∧
      ((compute_iou_overlap_int [0, 1, 2] pageB_y pageB_pred).length = 3
        ∧ ((compute_iou_overlap_int [0, 1, 2] pageB_y pageB_pred).getD 0 []).length
            = 3 - 1
        ∧ ((compute_iou_overlap_int [0, 1, 2] pageB_y pageB_pred).getD 0 []).getD 0 0
            = popcount (maskAnd (pageB_y.getD (([0, 1, 2] : List ℕ).getD 0 0) [])
                (pageB_pred.getD
                  ((([0, 1, 2] : List ℕ).filter
                    fun s => s ≠ ([0, 1, 2] : List ℕ).getD 0 0).getD 0 0) []))
        ∧ ((compute_iou_overlap_uni [0, 1, 2] pageB_y pageB_pred).getD 0 []).getD 0 0
            = popcount (maskOr (pageB_y.getD (([0, 1, 2] : List ℕ).getD 0 0) [])
                (pageB_pred.getD
                  ((([0, 1, 2] : List ℕ).filter
                    fun s => s ≠ ([0, 1, 2] : List ℕ).getD 0 0).getD 0 0) []))) :=
  ⟨⟨by decide, by decide, by decide⟩,
    compute_iou_overlap_entries [0, 1, 2] pageB_y pageB_pred (by decide) 0 0
      (by decide) (by decide)⟩

/- Claim theorems for the evaluation loop. -/

theorem runLoop_aux (l r : List ℕ) (t : ℚ) :
    ∀ (items : List PageLoad) (n : ℕ) (acc : List SegStats),
    items.foldl
      (fun acc2 item =>
        match item with
        | .ok conf target =>
            (acc2.1, acc2.2 ++ [processPage l r t conf target])
        | .failed _ => (acc2.1 - 1, acc2.2))
      (n, acc)
      = (n - items.countP isFailed,
         acc ++ (loadedPages items).map fun pg => processPage l r t pg.1 pg.2)
  | [], n, acc => by simp [loadedPages]
  | .ok conf target :: rest, n, acc => by
    have ih := runLoop_aux l r t rest n (acc ++ [processPage l r t conf target])
    simp only [List.foldl_cons]
    rw [ih]
    simp [loadedPages, isFailed, List.countP_cons]
  | .failed m :: rest, n, acc => by
    have ih := runLoop_aux l r t rest (n - 1) acc
    simp only [List.foldl_cons]
    rw [ih]
    simp only [loadedPages, isFailed, List.countP_cons, List.filterMap_cons,
      Prod.mk.injEq, if_true, and_true]
    omega

theorem loadedPages_length : ∀ items : List PageLoad,
    (loadedPages items).length + items.countP isFailed = items.length
  | [] => rfl
  | .ok conf target :: rest => by
    have ih := loadedPages_length rest
    simp [loadedPages, isFailed, List.countP_cons] at *
    omega
  | .failed m :: rest => by
    have ih := loadedPages_length rest
    simp [loadedPages, isFailed, List.countP_cons] at *
    omega

/-- C8: for every input sequence of pages, the evaluation loop skips every
failing page entirely, ends with the batch counter equal to the number of
successfully loaded pages (the initial expected total decremented once per
failure), accumulates exactly the statistics of the successfully loaded
pages in order, and therefore reports metrics identical to a run over only
those pages. -/
theorem runLoop_skip_semantics (l r : List ℕ) (t : ℚ)
    (items : List PageLoad) :
    runLoop l r t items
        = ((loadedPages items).length,
           (loadedPages items).map fun pg => processPage l r t pg.1 pg.2)
      ∧ ∀ C : ℕ,
          mean_accuracy (runLoop l r t items).2 C
              = mean_accuracy
                  ((loadedPages items).map fun pg =>
                    processPage l r t pg.1 pg.2) C
            ∧ mean_iu (runLoop l r t items).2 C
                = mean_iu
                    ((loadedPages items).map fun pg =>
                      processPage l r t pg.1 pg.2) C
            ∧ freq_iu (runLoop l r t items).2 C
                = freq_iu
                    ((loadedPages items).map fun pg =>
                      processPage l r t pg.1 pg.2) C := by
  have h := runLoop_aux l r t items items.length []
  have h2 := loadedPages_length items
  have hmain : runLoop l r t items
      = ((loadedPages items).length,
         (loadedPages items).map fun pg => processPage l r t pg.1 pg.2) := by
    unfold runLoop
    rw [h]
    simp only [List.nil_append, Prod.mk.injEq, and_true]
    omega
  refine ⟨hmain, fun C => ?_⟩
  rw [hmain]
  exact ⟨rfl, rfl, rfl⟩

/- Claim theorems for the binarizer. -/

/-- C7: for every threshold t in (0, 1), the binarized prediction marks a
pixel-class pair present exactly when its confidence strictly exceeds t (in
particular a confidence equal to t is absent), and the evaluation loop body
computes its statistics from the target resized to the prediction's spatial
resolution and the binarized prediction, both flattened. -/
theorem binarizer_strict_threshold (t : ℚ) (ht : 0 < t ∧ t < 1) :
    (∀ (g : List (List ℚ)) (i j : ℕ),
        (((binarizeGrid t g).getD i []).getD j false) = true
          ↔ t < (g.getD i []).getD j 0)
      ∧ (∀ (g : List (List ℚ)) (i j : ℕ),
          (g.getD i []).getD j 0 = t →
            (((binarizeGrid t g).getD i []).getD j false) = false)
      ∧ ∀ (lines_idx regions_idx : List ℕ) (conf : List (List (List ℚ)))
          (target : List (List (List Bool))),
          processPage lines_idx regions_idx t conf target
            = pageStats lines_idx regions_idx
                ((target.map (interpNearest2d (conf.headD []).length
                  ((conf.headD []).headD []).length)).map List.flatten)
                ((conf.map (binarizeGrid t)).map List.flatten) := by
  have hmain : ∀ (g : List (List ℚ)) (i j : ℕ),
      (((binarizeGrid t g).getD i []).getD j false) = true
        ↔ t < (g.getD i []).getD j 0 := by
    intro g i j
    by_cases hi : i < g.length
    · have h1 : (binarizeGrid t g).getD i []
          = (g.getD i []).map fun v => decide (v > t) := by
        rw [binarizeGrid, getD_map _ hi [] []]
      by_cases hj : j < (g.getD i []).length
      · have h2 : ((g.getD i []).map fun v => decide (v > t)).getD j false
            = decide ((g.getD i []).getD j 0 > t) := getD_map _ hj false 0
        rw [h1, h2]
        simp
      · have hlen : ((g.getD i []).map fun v => decide (v > t)).length ≤ j := by
          simpa using Nat.le_of_not_lt hj
        have h2 : ((g.getD i []).map fun v => decide (v > t)).getD j false
            = false := List.getD_eq_default _ _ hlen
        have h3 : (g.getD i []).getD j 0 = 0 :=
          List.getD_eq_default _ _ (Nat.le_of_not_lt hj)
        rw [h1, h2, h3]
        simp only [Bool.false_eq_true, false_iff, not_lt]
        exact le_of_lt ht.1
    · have hlen : (binarizeGrid t g).length ≤ i := by
        simpa [binarizeGrid] using Nat.le_of_not_lt hi
      have h1 : (binarizeGrid t g).getD i [] = [] :=
        List.getD_eq_default _ _ hlen
      have h3 : g.getD i [] = [] :=
        List.getD_eq_default _ _ (Nat.le_of_not_lt hi)
      rw [h1, h3]
      have h4 : ([] : List Bool).getD j false = false :=
        List.getD_eq_default _ _ (Nat.zero_le j)
      have h5 : ([] : List ℚ).getD j 0 = 0 :=
        List.getD_eq_default _ _ (Nat.zero_le j)
      rw [h4, h5]
      simp only [Bool.false_eq_true, false_iff, not_lt]
      exact le_of_lt ht.1
  refine ⟨hmain, fun g i j hv => ?_, fun _ _ _ _ => rfl⟩
  rw [← Bool.not_eq_true, hmain g i j, hv]
  exact lt_irrefl t

/-- Witness for binarizer_strict_threshold at the threshold 0.5 used by
segtest's default. -/
theorem binarizer_strict_threshold_witness :
    ((0 : ℚ) < 1 / 2 ∧ (1 : ℚ) / 2 < 1) ∧
      ((∀ (g : List (List ℚ)) (i j : ℕ),
          (((binarizeGrid (1 / 2) g).getD i []).getD j false) = true
            ↔ (1 : ℚ) / 2 < (g.getD i []).getD j 0)
        ∧ (∀ (g : List (List ℚ)) (i j : ℕ),
            (g.getD i []).getD j 0 = 1 / 2 →
              (((binarizeGrid (1 / 2) g).getD i []).getD j false) = false)
        ∧ ∀ (lines_idx regions_idx : List ℕ) (conf : List (List (List ℚ)))
            (target : List (List (List Bool))),
            processPage lines_idx regions_idx (1 / 2) conf target
              = pageStats lines_idx regions_idx
                  ((target.map (interpNearest2d (conf.headD []).length
                    ((conf.headD []).headD []).length)).map List.flatten)
                  ((conf.map (binarizeGrid (1 / 2))).map List.flatten)) :=
  ⟨by norm_num, binarizer_strict_threshold (1 / 2) (by norm_num)⟩

/- Claim theorems for the overlap table. -/

/-- Shape predicate: an r x c count matrix. -/
def matShape (r c : ℕ) (m : List (List ℕ)) : Prop :=
  m.length = r ∧ ∀ row ∈ m, row.length = c

instance (r c : ℕ) (m : List (List ℕ)) : Decidable (matShape r c m) :=
  decidable_of_iff (m.length = r ∧ ∀ row ∈ m, row.length = c) Iff.rfl

theorem getD_zipWith {α β γ : Type} {f : α → β → γ} {a : List α} {b : List β}
    {i : ℕ} (ha : i < a.length) (hb : i < b.length) (da : α) (db : β)
    (dc : γ) :
    (List.zipWith f a b).getD i dc = f (a.getD i da) (b.getD i db) := by
  rw [List.getD_eq_getElem _ _ (by rw [List.length_zipWith]; omega),
    List.getElem_zipWith, List.getD_eq_getElem _ _ ha,
    List.getD_eq_getElem _ _ hb]

theorem getD_enum {α : Type} {l : List α} {r : ℕ} (hr : r < l.length)
    (d : ℕ × α) (d0 : α) : l.enum.getD r d = (r, l.getD r d0) := by
  rw [List.getD_eq_getElem _ _ (by rw [List.enum_length]; exact hr),
    List.getElem_enum, List.getD_eq_getElem _ _ hr]

theorem getD_replicate_self {α : Type} (x : α) (n i : ℕ) :
    (List.replicate n x).getD i x = x := by
  by_cases h : i < n
  · rw [List.getD_eq_getElem _ _ (by simpa using h)]
    exact List.getElem_replicate _ _
  · exact List.getD_eq_default _ _ (by simpa using Nat.le_of_not_lt h)

theorem matShape_zeroMat (r c : ℕ) : matShape r c (zeroMat r c) := by
  constructor
  · simp [zeroMat]
  · intro row hrow
    rw [zeroMat] at hrow
    rw [List.eq_of_mem_replicate hrow]
    simp

theorem zeroMat_entry (r c i j : ℕ) :
    ((zeroMat r c).getD i []).getD j 0 = 0 := by
  by_cases hi : i < r
  · have h1 : (zeroMat r c).getD i [] = List.replicate c 0 := by
      rw [List.getD_eq_getElem _ _ (by simpa [zeroMat] using hi)]
      exact List.getElem_replicate _ _
    rw [h1, getD_replicate_self]
  · have h1 : (zeroMat r c).getD i [] = [] :=
      List.getD_eq_default _ _ (by simpa [zeroMat] using Nat.le_of_not_lt hi)
    rw [h1]
    exact List.getD_eq_default _ _ (Nat.zero_le j)

theorem matShape_matAdd {r c : ℕ} {a b : List (List ℕ)}
    (ha : matShape r c a) (hb : matShape r c b) :
    matShape r c (matAdd a b) := by
  constructor
  · rw [matAdd, List.length_zipWith, ha.1, hb.1]
    exact Nat.min_self r
  · intro row hrow
    rw [matAdd] at hrow
    obtain ⟨n, hn, heq⟩ := List.mem_iff_getElem.1 hrow
    have hn' := hn
    rw [List.length_zipWith] at hn'
    have hna : n < a.length := lt_of_lt_of_le hn' (min_le_left _ _)
    have hnb : n < b.length := lt_of_lt_of_le hn' (min_le_right _ _)
    rw [List.getElem_zipWith] at heq
    rw [← heq, vecAdd, List.length_zipWith]
    have la : a[n].length = c := ha.2 _ (List.getElem_mem hna)
    have lb : b[n].length = c := hb.2 _ (List.getElem_mem hnb)
    rw [la, lb]
    exact Nat.min_self c

theorem rowLen_of_shape {r c : ℕ} {a : List (List ℕ)} (ha : matShape r c a)
    {i : ℕ} (hi : i < r) : (a.getD i []).length = c := by
  have hia : i < a.length := by rw [ha.1]; exact hi
  rw [List.getD_eq_getElem _ _ hia]
  exact ha.2 _ (List.getElem_mem hia)

theorem matAdd_entry {r c : ℕ} {a b : List (List ℕ)} {i j : ℕ}
    (ha : matShape r c a) (hb : matShape r c b) (hi : i < r) (hj : j < c) :
    ((matAdd a b).getD i []).getD j 0
      = (a.getD i []).getD j 0 + (b.getD i []).getD j 0 := by
  have hia : i < a.length := by rw [ha.1]; exact hi
  have hib : i < b.length := by rw [hb.1]; exact hi
  have hja : j < (a.getD i []).length := by rw [rowLen_of_shape ha hi]; exact hj
  have hjb : j < (b.getD i []).length := by rw [rowLen_of_shape hb hi]; exact hj
  rw [matAdd, getD_zipWith hia hib [] [] []]
  rw [vecAdd, getD_zipWith hja hjb 0 0 0]

theorem foldl_matAdd_entry {k c : ℕ} :
    ∀ (ms : List (List (List ℕ))) (z : List (List ℕ)),
    matShape k c z → (∀ m ∈ ms, matShape k c m) →
    matShape k c (ms.foldl matAdd z) ∧
      ∀ i j, i < k → j < c →
        ((ms.foldl matAdd z).getD i []).getD j 0
          = (z.getD i []).getD j 0
            + (ms.map fun m => (m.getD i []).getD j 0).sum
  | [], z, hz, _ => ⟨hz, by simp⟩
  | m :: ms, z, hz, hms => by
    have hm : matShape k c m := hms m (List.mem_cons_self _ _)
    have hz' : matShape k c (matAdd z m) := matShape_matAdd hz hm
    have ih := foldl_matAdd_entry ms (matAdd z m) hz'
      (fun x hx => hms x (List.mem_cons_of_mem _ hx))
    refine ⟨by simpa using ih.1, fun i j hi hj => ?_⟩
    rw [List.foldl_cons, ih.2 i j hi hj, matAdd_entry hz hm hi hj]
    simp only [List.map_cons, List.sum_cons]
    omega

theorem aggMats_shape {k : ℕ} {ms : List (List (List ℕ))}
    (h : ∀ m ∈ ms, matShape k (k - 1) m) :
    matShape k (k - 1) (aggMats k ms) :=
  (foldl_matAdd_entry ms (zeroMat k (k - 1)) (matShape_zeroMat _ _) h).1

theorem aggMats_entry {k : ℕ} {ms : List (List (List ℕ))}
    (h : ∀ m ∈ ms, matShape k (k - 1) m) {i j : ℕ} (hi : i < k)
    (hj : j < k - 1) :
    ((aggMats k ms).getD i []).getD j 0
      = (ms.map fun m => (m.getD i []).getD j 0).sum := by
  have hf := foldl_matAdd_entry ms (zeroMat k (k - 1)) (matShape_zeroMat _ _) h
  rw [aggMats, hf.2 i j hi hj, zeroMat_entry]
  omega

theorem ov_iu_entry (classes : List ℕ)
    (confInts confUnis : List (List (List ℕ)))
    (hsi : ∀ m ∈ confInts, matShape classes.length (classes.length - 1) m)
    (hsu : ∀ m ∈ confUnis, matShape classes.length (classes.length - 1) m)
    {r j : ℕ} (hr : r < classes.length) (hj : j < classes.length - 1) :
    ((ov_iu_mats classes confInts confUnis).getD r []).getD j 0
      = (((confInts.map fun m => (m.getD r []).getD j 0).sum : ℚ) + smooth)
        / (((confUnis.map fun m => (m.getD r []).getD j 0).sum : ℚ)
            + smooth) := by
  have hI := aggMats_shape hsi
  have hU := aggMats_shape hsu
  have hrI : r < (aggMats classes.length confInts).length := by
    rw [hI.1]; exact hr
  have hrU : r < (aggMats classes.length confUnis).length := by
    rw [hU.1]; exact hr
  have hjI : j < ((aggMats classes.length confInts).getD r []).length := by
    rw [rowLen_of_shape hI hr]; exact hj
  have hjU : j < ((aggMats classes.length confUnis).getD r []).length := by
    rw [rowLen_of_shape hU hr]; exact hj
  rw [ov_iu_mats, getD_zipWith hrI hrU [] [] []]
  rw [getD_zipWith hjI hjU 0 0 0]
  rw [aggMats_entry hsi hr hj, aggMats_entry hsu hr hj,
    Nat.cast_list_sum, Nat.cast_list_sum, List.map_map, List.map_map]
  rfl

/-- C4: for every category with at least two pairwise-distinct classes, the
rendered overlap table has one row per class labelled by that class; the
row for the class at position r holds exactly one cell per other class of
the category in order, the cell at position j being labelled by that other
class and holding (sum over pages of pairwiseIntersection[r][j] + smooth) /
(sum over pages of pairwiseUnion[r][j] + smooth), except that a value
numerically equal to 1 is rendered empty; no cell of a row is ever labelled
by the row's own class. -/
theorem overlap_table_correct (classes : List ℕ)
    (confInts confUnis : List (List (List ℕ)))
    (hnd : classes.Nodup) (_hk : 2 ≤ classes.length)
    (hsi : ∀ m ∈ confInts, matShape classes.length (classes.length - 1) m)
    (hsu : ∀ m ∈ confUnis, matShape classes.length (classes.length - 1) m)
    (r j : ℕ) (hr : r < classes.length) (hj : j < classes.length - 1) :
    (compute_overlap_iou classes confInts confUnis).length = classes.length
      ∧ ((compute_overlap_iou classes confInts confUnis).getD r (0, [])).1
          = classes.getD r 0
      ∧ ((compute_overlap_iou classes confInts
            confUnis).getD r (0, [])).2.length = classes.length - 1
      ∧ ((compute_overlap_iou classes confInts
            confUnis).getD r (0, [])).2.getD j (0, none)
          = ((classes.filter fun x => x ≠ classes.getD r 0).getD j 0,
             if (((confInts.map fun m => (m.getD r []).getD j 0).sum : ℚ)
                    + smooth)
                  / (((confUnis.map fun m => (m.getD r []).getD j 0).sum : ℚ)
                      + smooth) = 1 then
               none
             else
               some ((((confInts.map fun m =>
                   (m.getD r []).getD j 0).sum : ℚ) + smooth)
                 / (((confUnis.map fun m =>
                     (m.getD r []).getD j 0).sum : ℚ) + smooth)))
      ∧ ∀ cell ∈ ((compute_overlap_iou classes confInts
            confUnis).getD r (0, [])).2,
          cell.1 ≠ classes.getD r 0 := by
  have hmem : classes.getD r 0 ∈ classes := by
    rw [List.getD_eq_getElem _ _ hr]
    exact List.getElem_mem _
  have hflen := length_filter_ne hnd hmem
  have hrow : (compute_overlap_iou classes confInts confUnis).getD r (0, [])
      = (classes.getD r 0,
         ((classes.filter fun x => x ≠ classes.getD r 0).enum).map fun sc =>
           (sc.2,
            if ((ov_iu_mats classes confInts confUnis).getD r []).getD sc.1 0
                = 1 then
              none
            else
              some (((ov_iu_mats classes confInts
                  confUnis).getD r []).getD sc.1 0))) := by
    rw [compute_overlap_iou,
      getD_map _ (by rw [List.enum_length]; exact hr)
        ((0 : ℕ), ([] : List (ℕ × Option ℚ))) ((0 : ℕ), (0 : ℕ)),
      getD_enum hr _ 0]
  have hjf : j < (classes.filter fun x => x ≠ classes.getD r 0).length := by
    omega
  have hcell : (((classes.filter fun x =>
        x ≠ classes.getD r 0).enum).map fun sc =>
          (sc.2,
           if ((ov_iu_mats classes confInts confUnis).getD r []).getD sc.1 0
               = 1 then
             none
           else
             some (((ov_iu_mats classes confInts
                 confUnis).getD r []).getD sc.1 0))).getD j (0, none)
      = ((classes.filter fun x => x ≠ classes.getD r 0).getD j 0,
         if ((ov_iu_mats classes confInts confUnis).getD r []).getD j 0
             = 1 then
           none
         else
           some (((ov_iu_mats classes confInts
               confUnis).getD r []).getD j 0)) := by
    rw [getD_map _ (by rw [List.enum_length]; exact hjf)
        ((0 : ℕ), (none : Option ℚ)) ((0 : ℕ), (0 : ℕ)),
      getD_enum hjf _ 0]
  refine ⟨by simp [compute_overlap_iou, List.enum_length], ?_, ?_, ?_, ?_⟩
  · rw [hrow]
  · rw [hrow]
    simp only [List.length_map, List.enum_length]
    exact hflen
  · rw [hrow]
    simp only
    rw [hcell, ov_iu_entry classes confInts confUnis hsi hsu hr hj]
  · rw [hrow]
    intro cell hcell2
    obtain ⟨sc, hsc, rfl⟩ := List.mem_map.1 hcell2
    have h2 : sc.2 ∈ classes.filter fun x => x ≠ classes.getD r 0 :=
      List.snd_mem_of_mem_enum hsc
    have h3 := List.of_mem_filter h2
    simpa using h3

/-- Witness for overlap_table_correct on a 2-class category with one
accumulated page. -/
theorem overlap_table_correct_witness :
    (([0, 1] : List ℕ).Nodup
        ∧ 2 ≤ ([0, 1] : List ℕ).length
        ∧ (∀ m ∈ ([[[1], [1]]] : List (List (List ℕ))),
            matShape ([0, 1] : List ℕ).length (([0, 1] : List ℕ).length - 1) m)
        ∧ (∀ m ∈ ([[[1], [2]]] : List (List (List ℕ))),
            matShape ([0, 1] : List ℕ).length (([0, 1] : List ℕ).length - 1) m)
        ∧ (0 : ℕ) < ([0, 1] : List ℕ).length
        ∧ (0 : ℕ) < ([0, 1] : List ℕ).length - 1) ∧
      ((compute_overlap_iou [0, 1] [[[1], [1]]] [[[1], [2]]]).length
          = ([0, 1] : List ℕ).length
        ∧ ((compute_overlap_iou [0, 1] [[[1], [1]]]
              [[[1], [2]]]).getD 0 (0, [])).1 = ([0, 1] : List ℕ).getD 0 0
        ∧ ((compute_overlap_iou [0, 1] [[[1], [1]]]
              [[[1], [2]]]).getD 0 (0, [])).2.length
            = ([0, 1] : List ℕ).length - 1
        ∧ ((compute_overlap_iou [0, 1] [[[1], [1]]]
              [[[1], [2]]]).getD 0 (0, [])).2.getD 0 (0, none)
            = ((([0, 1] : List ℕ).filter
                  fun x => x ≠ ([0, 1] : List ℕ).getD 0 0).getD 0 0,
               if ((((([[[1], [1]]] : List (List (List ℕ))).map fun m =>
                          (m.getD 0 []).getD 0 0).sum : ℚ) + smooth)
                    / ((((([[[1], [2]]] : List (List (List ℕ))).map fun m =>
                          (m.getD 0 []).getD 0 0).sum : ℚ)) + smooth)) = 1 then
                 none
               else
                 some (((((([[[1], [1]]] : List (List (List ℕ))).map fun m =>
                         (m.getD 0 []).getD 0 0).sum : ℚ)) + smooth)
                   / ((((([[[1], [2]]] : List (List (List ℕ))).map fun m =>
                         (m.getD 0 []).getD 0 0).sum : ℚ)) + smooth)))
        ∧ ∀ cell ∈ ((compute_overlap_iou [0, 1] [[[1], [1]]]
              [[[1], [2]]]).getD 0 (0, [])).2,
            cell.1 ≠ ([0, 1] : List ℕ).getD 0 0) :=
  ⟨⟨by decide, by decide, by decide, by decide, by decide, by decide⟩,
    overlap_table_correct [0, 1] [[[1], [1]]] [[[1], [2]]] (by decide)
      (by decide) (by decide) (by decide) 0 0 (by decide) (by decide)⟩

end Kraken
